import Mathlib

/-!
# BiometricEvaluation: FileRecordStore and Image grayscale conversion

A shallow embedding of `common/src/io/be_filerecstore.cpp` and of
`Image::getRawGrayscaleData` with `Image::valueInColorspace`
(`common/src/libbiomeval/be_image_image.cpp`).

A C++ `std::string` and a byte buffer are both lists of `Char` (one `Char`
stands for one C++ `char`; only equality with `/`, newline and NUL is ever
inspected).  The operating system's file system is an explicit value that
every operation takes and returns.
-/

namespace BiometricEvaluation

/-! ## The file system seen through stat, mkdir, fopen and the fstreams -/

/-- What a directory entry refers to: a regular file with its bytes, or a directory. -/
inductive Node where
  | file (content : List Char)
  | dir
  deriving DecidableEq, Repr

/-- A resolved location: the component names from the file-system root. -/
abbrev Path := List (List Char)

/-- The file system: the entries (the first entry for a path is the live one; the
root directory `[]` always exists) and the working directory of the process. -/
structure FileSystem where
  entries : List (Path × Node)
  cwd : Path
  deriving DecidableEq, Repr

/-- First entry recorded for path `p`. -/
def lookup (p : Path) : List (Path × Node) → Option Node
  | [] => none
  | e :: es => if e.1 = p then some e.2 else lookup p es

/-- The node at a resolved location. -/
def FileSystem.node (fs : FileSystem) (p : Path) : Option Node :=
  if p = [] then some Node.dir else lookup p fs.entries

/-- Create or overwrite the entry at `p`. -/
def FileSystem.put (fs : FileSystem) (p : Path) (n : Node) : FileSystem :=
  { fs with entries := (p, n) :: fs.entries }

/-- The view a C library call has of a `std::string` through `c_str()`: the
characters before the first NUL. -/
def cstr : List Char → List Char
  | [] => []
  | c :: cs => if c = Char.ofNat 0 then [] else c :: cstr cs

/-- Split a pathname into its components at every `/`. -/
def splitPath : List Char → List (List Char)
  | [] => [[]]
  | c :: cs =>
    if c = '/' then [] :: splitPath cs
    else match splitPath cs with
      | [] => [[c]]
      | x :: xs => (c :: x) :: xs

/-- One step of pathname resolution from directory `cur` through component `c`.
The current location must be a directory; an empty component and `.` stay,
`..` goes to the parent, a name descends. -/
def step (fs : FileSystem) (cur : Path) (c : List Char) : Option Path :=
  if fs.node cur = some Node.dir then
    if c = [] ∨ c = ['.'] then some cur
    else if c = ['.', '.'] then some cur.dropLast
    else some (cur ++ [c])
  else none

/-- Resolve a list of components starting at `cur`. -/
def walk (fs : FileSystem) : Path → List (List Char) → Option Path
  | cur, [] => some cur
  | cur, c :: cs => (step fs cur c).bind (fun nxt => walk fs nxt cs)

/-- Where resolution starts: the root for an absolute pathname, else the
working directory. -/
def startDir (fs : FileSystem) (p : List Char) : Path :=
  if p.head? = some '/' then [] else fs.cwd

/-- The location a C pathname denotes, when every directory on the way exists. -/
def resolve (fs : FileSystem) (p : List Char) : Option Path :=
  if p = [] then none else walk fs (startDir fs p) (splitPath p)

/-- A component that names an entry (not empty, `.` or `..`). -/
def properName (c : List Char) : Bool :=
  decide (c ≠ [] ∧ c ≠ ['.'] ∧ c ≠ ['.', '.'])

/-- The location a creating call would give a new entry: the pathname must end
in a proper name and its parent must resolve to a directory. -/
def resolveNew (fs : FileSystem) (p : List Char) : Option Path :=
  match (splitPath p).getLast? with
  | some c => if properName c then resolve fs p else none
  | none => none

/-- The call `stat(pathname, &sb)`: the node found, `none` when it returns nonzero. -/
def stat (fs : FileSystem) (pathname : List Char) : Option Node :=
  (resolve fs (cstr pathname)).bind fs.node

/-- Remove the trailing slashes of a pathname (mkdir accepts them). -/
def dropTrailingSlashes (p : List Char) : List Char :=
  (p.reverse.dropWhile (fun c => c = '/')).reverse

/-- The call `mkdir(pathname, 0700)`: the new file system, `none` when it fails
(the path exists already or its parent is not a directory). -/
def mkdir (fs : FileSystem) (pathname : List Char) : Option FileSystem :=
  match resolveNew fs (dropTrailingSlashes (cstr pathname)) with
  | some t => if fs.node t = none then some (fs.put t Node.dir) else none
  | none => none

/-- Opening `pathname` for writing (`fopen(_, "wb")`, `std::ofstream`): the
location of the file that is created or truncated, `none` when the open fails
(parent not a directory, or the path is a directory). -/
def openWrite (fs : FileSystem) (pathname : List Char) : Option Path :=
  match resolveNew fs (cstr pathname) with
  | some t => if fs.node t = some Node.dir then none else some t
  | none => none

/-- The bytes of the regular file that `pathname` denotes, `none` when it
denotes no regular file. -/
def fileContent (fs : FileSystem) (pathname : List Char) : Option (List Char) :=
  match stat fs pathname with
  | some (Node.file content) => some content
  | _ => none

/-- The same working directory and the same directories. -/
def SameDirs (fs fs' : FileSystem) : Prop :=
  fs'.cwd = fs.cwd ∧ ∀ p, (fs'.node p = some Node.dir ↔ fs.node p = some Node.dir)

/-- The same working directory and at least the same directories. -/
def MoreDirs (fs fs' : FileSystem) : Prop :=
  fs'.cwd = fs.cwd ∧ ∀ p, fs.node p = some Node.dir → fs'.node p = some Node.dir

/-! ## Streams -/

/-- The part of `input` before the first newline, and what follows that newline
(`none` when the input ends before a newline is seen). -/
def readLine : List Char → List Char × Option (List Char)
  | [] => ([], none)
  | c :: cs =>
    if c = '\n' then ([], some cs)
    else ((c :: (readLine cs).1), (readLine cs).2)

/-- An input file stream: the bytes not yet consumed, whether the stream can
be read at all (a stream opened on a directory cannot), and the state bits. -/
structure IStream where
  rest : List Char
  readable : Bool
  eofbit : Bool
  failbit : Bool
  badbit : Bool
  deriving DecidableEq, Repr

/-- The constructor `std::ifstream(pathname)`: `none` when the stream is not
open afterwards (`!ifs`).  A regular file is opened on its bytes; a directory
is opened too, but every read from it fails. -/
def openStream (fs : FileSystem) (pathname : List Char) : Option IStream :=
  match stat fs pathname with
  | some (Node.file content) =>
    some { rest := content, readable := true, eofbit := false, failbit := false,
           badbit := false }
  | some Node.dir =>
    some { rest := [], readable := false, eofbit := false, failbit := false,
           badbit := false }
  | none => none

/-- The member `eof()` of a stream. -/
def IStream.eof (s : IStream) : Bool := s.eofbit

/-- The call `std::getline(is, str)`: on a stream that is not good nothing is
extracted and `str` is kept; on a stream that cannot be read `str` is emptied
and the failed read sets `badbit` and `failbit`, not `eofbit`; otherwise `str`
receives the characters up to the next newline, which is consumed; reaching
the end of the input sets `eofbit`, and also `failbit` when nothing was
extracted. -/
def getline (s : IStream) (str : List Char) : IStream × List Char :=
  if s.eofbit ∨ s.failbit ∨ s.badbit then ({ s with failbit := true }, str)
  else if !s.readable then ({ s with failbit := true, badbit := true }, [])
  else match readLine s.rest with
    | (line, some rest) => ({ s with rest := rest }, line)
    | (line, none) => ({ s with rest := [], eofbit := true, failbit := line.isEmpty }, line)

/-! ## FileRecordStore -/

/-- The exceptions of the library.  A method returns the exception it throws,
`none` when it returns normally. -/
inductive Error where
  | ObjectExists
  | ObjectDoesNotExist
  | StrategyError
  | ParameterError
  deriving DecidableEq, Repr

/-- Modelled from the spec: the type of the member `_count`, which is declared
in the base-class header, not among the sources.  The spec gives the record
count as an integer, so it is a natural number and `_count++` adds one. -/
abbrev Count := Nat

/-- The data members of a FileRecordStore object: those inherited from
RecordStore and the directory it is rooted at. -/
structure FileRecordStore where
  _name : List Char
  _description : List Char
  _count : Count
  _directory : List Char
  deriving DecidableEq, Repr

/-- The object together with the file system it lives on. -/
structure State where
  fs : FileSystem
  self : FileRecordStore
  deriving DecidableEq, Repr

/-- The reserved name of the control file. -/
def controlFileName : List Char := ".frscontrol".toList

/-- Modelled from the spec: the base-class constructor
`RecordStore(name, description)`, whose source file is not part of the
repository sources at hand.  It keeps the name and the description and starts
the cached record count at zero (a new store holds no record). -/
def RecordStore.init (name description : List Char) : FileRecordStore :=
  { _name := name, _description := description, _count := 0, _directory := [] }

/-- The method `canonicalName`: the directory, a slash, the name. -/
def FileRecordStore.canonicalName (self : FileRecordStore) (name : List Char) : List Char :=
  self._directory ++ '/' :: name

/-- The method `fileExists`: whether `stat` succeeds on the pathname. -/
def fileExists (fs : FileSystem) (pathname : List Char) : Bool :=
  (stat fs pathname).isSome

/-- The method `writeControlFile`.  The stream is opened on the canonical name
of the control file (failure to open throws StrategyError); the directory and
the description are written, each followed by a newline, and the result of
the writes is not inspected: `xfer` is the number of bytes the device accepts. -/
def FileRecordStore.writeControlFile (st : State) (xfer : Nat) : Option Error × State :=
  match openWrite st.fs (st.self.canonicalName controlFileName) with
  | none => (some Error.StrategyError, st)
  | some fp =>
    let text := st.self._directory ++ '\n' :: (st.self._description ++ ['\n'])
    (none, { st with fs := st.fs.put fp (Node.file (text.take xfer)) })

/-- The method `readControlFile`.  Failure to open throws StrategyError; the
first line goes to `_directory`; if the stream is at end of file after that
read StrategyError is thrown; the second line goes to `_description`. -/
def FileRecordStore.readControlFile (st : State) : Option Error × State :=
  match openStream st.fs (st.self.canonicalName controlFileName) with
  | none => (some Error.StrategyError, st)
  | some ifs =>
    let r1 := getline ifs st.self._directory
    let st1 : State := { st with self := { st.self with _directory := r1.2 } }
    if r1.1.eof then (some Error.StrategyError, st1)
    else
      let r2 := getline r1.1 st1.self._description
      (none, { st1 with self := { st1.self with _description := r2.2 } })

/-- The two-argument constructor (create a store).  Fails with ObjectExists
when `stat` finds the directory, with StrategyError when `mkdir` or the
creation of the control file fails. -/
def FileRecordStore.create (fs : FileSystem) (name description : List Char) (xfer : Nat) :
    Option Error × State :=
  let self := { RecordStore.init name description with _directory := name }
  if (stat fs self._directory).isSome then (some Error.ObjectExists, ⟨fs, self⟩)
  else match mkdir fs self._directory with
    | none => (some Error.StrategyError, ⟨fs, self⟩)
    | some fs1 => FileRecordStore.writeControlFile ⟨fs1, self⟩ xfer

/-- The one-argument constructor (open a store).  `base` is the object as the
default constructor of the base class leaves it (that constructor is given no
name).  Fails with ObjectDoesNotExist when the directory is not found, with
StrategyError as `readControlFile` does. -/
def FileRecordStore.open_ (fs : FileSystem) (base : FileRecordStore) (name : List Char) :
    Option Error × State :=
  let self := { base with _directory := name }
  if !fileExists fs name then (some Error.ObjectDoesNotExist, ⟨fs, self⟩)
  else FileRecordStore.readControlFile ⟨fs, self⟩

/-- The method `insert`.  The caller's buffer `data` holds at least `size`
bytes.  The file is created by `fopen` before anything is written.  The
stream is buffered: `fwrite` returns `min size accepted`, the number of bytes
that it wrote to the file or kept in the buffer of the stream (a record
shorter than one block of the stream is kept whole, so that `accepted` is at
least `size`), and `fclose`, whose result is dropped, leaves in the file the
part of those bytes that the device accepts, `xfer` bytes at most.  Only a
count from `fwrite` below `size` throws StrategyError; otherwise `_count` is
incremented, whatever reached the file. -/
def FileRecordStore.insert (st : State) (key data : List Char) (size accepted xfer : Nat) :
    Option Error × State :=
  let pathname := st.self.canonicalName key
  if fileExists st.fs pathname then (some Error.ObjectExists, st)
  else match openWrite st.fs pathname with
    | none => (some Error.StrategyError, st)
    | some fp =>
      let sz := min size accepted
      let st1 : State := { st with fs := st.fs.put fp (Node.file (data.take (min sz xfer))) }
      if sz ≠ size then (some Error.StrategyError, st1)
      else (none, { st1 with self := { st1.self with _count := st1.self._count + 1 } })

/-- The method `remove`: throws ObjectDoesNotExist when the canonical path is
not found; its body ends there. -/
def FileRecordStore.remove (st : State) (key : List Char) : Option Error × State :=
  let pathname := st.self.canonicalName key
  if !fileExists st.fs pathname then (some Error.ObjectDoesNotExist, st)
  else (none, st)

/-- The method `read`: its body is empty.  Nothing is thrown, the caller's
buffer `data` is not written, and control leaves a function declared to return
`uint64_t` without a return statement, so no return value is defined (`none`). -/
def FileRecordStore.read (st : State) (_key : List Char) (data : List Char) :
    Option Error × Option Nat × List Char × State :=
  (none, none, data, st)

/-! ## Reachable states and the record count -/

/-- What the conversion takes from outside `be_image_image.cpp`: the constants
`max16BitColor` and `max48BitColor` of the header, and `luma r g b`, the value
of the single-precision expression
`(uint8_t)((r * redFactor) + (g * greenFactor) + (b * blueFactor))` on three
8-bit operands (floating point is not evaluated here). -/
structure ColorEnv where
  max16BitColor : Nat
  max48BitColor : Nat
  luma : Nat → Nat → Nat → Nat

/-- What the conversion reads of an Image: the two members of
`getDimensions()`, the stored depth (a `uint32_t`) and the result of
`getRawData()` (bytes, each below 256).  The type `Size` is declared in a
header that is not among the sources; its members are `uint32_t`, as the
depth and the counters that index by them are. -/
structure Image where
  xSize : Nat
  ySize : Nat
  _depth : Nat
  rawData : List Nat

/-- The value of `getDimensions().xSize * getDimensions().ySize`, a product of
two `uint32_t`: the number of elements of the output array. -/
def Image.pixels (img : Image) : Nat :=
  (img.xSize * img.ySize) % 2 ^ 32

/-- The method `valueInColorspace` on `uint64_t` operands; for `depth < 64`
the conversion of `pow(2.0, depth)` to `uint64_t` is exact. -/
def valueInColorspace (color maxColorValue depth : Nat) : Nat :=
  ((2 ^ depth - 1) * color) % 2 ^ 64 / maxColorValue

/-- The 16-bit value `(twoBytes[0] << 8) | twoBytes[1]` stored in a `uint16_t`. -/
def twoBytesValue (b0 b1 : Nat) : Nat :=
  ((b0 <<< 8) ||| b1) % 2 ^ 16

/-- The body of `case 48` on the six bytes `rawColor[i] .. rawColor[i + 5]`:
the value stored in `rawGray[j]`.  As in the source, the second and third
interpolations are applied to `rValue`, which by then holds the interpolated
red sample. -/
def gray48 (env : ColorEnv) (c0 c1 c2 c3 c4 c5 : Nat) : Nat :=
  let rValue := twoBytesValue c0 c1
  let _gValue := twoBytesValue c2 c3
  let _bValue := twoBytesValue c4 c5
  let rValue := valueInColorspace rValue env.max48BitColor 8 % 256
  let gValue := valueInColorspace rValue env.max48BitColor 8 % 256
  let bValue := valueInColorspace rValue env.max48BitColor 8 % 256
  env.luma (rValue % 256) (gValue % 256) (bValue % 256)

/-- The loop variables `i`, `j` (both `uint32_t`) and the output array, whose
elements are `none` until they are written. -/
structure LoopState where
  i : Nat
  j : Nat
  rawGray : List (Option Nat)

/-- Store `v` in `rawGray[j]`, advance `i` by `k` and increment `j`; `none`
when `j` is outside the array. -/
def LoopState.store (s : LoopState) (v k : Nat) : Option LoopState :=
  if s.j < s.rawGray.length then
    some { i := (s.i + k) % 2 ^ 32, j := (s.j + 1) % 2 ^ 32, rawGray := s.rawGray.set s.j (some v) }
  else none

/-- One iteration of the conversion loop, the `j++` included; `none` when an
array is indexed outside its bounds. -/
def loopBody (env : ColorEnv) (depth : Nat) (rawColor : List Nat) (s : LoopState) :
    Option LoopState :=
  let at_ := fun (k : Nat) => rawColor[(s.i + k) % 2 ^ 32]?
  if depth = 1 ∨ depth = 8 then
    (at_ 0).bind (fun c => s.store c 1)
  else if depth = 16 then
    (at_ 0).bind (fun c0 => (at_ 1).bind (fun c1 =>
      s.store (valueInColorspace (twoBytesValue c0 c1) env.max16BitColor 8 % 256) 2))
  else if depth = 24 then
    (at_ 0).bind (fun c0 => (at_ 1).bind (fun c1 => (at_ 2).bind (fun c2 =>
      s.store (env.luma c0 c1 c2) 3)))
  else if depth = 32 then
    (at_ 0).bind (fun c0 => (at_ 1).bind (fun c1 => (at_ 2).bind (fun c2 =>
      s.store (env.luma c0 c1 c2) 4)))
  else if depth = 48 then
    (at_ 0).bind (fun c0 => (at_ 1).bind (fun c1 => (at_ 2).bind (fun c2 =>
    (at_ 3).bind (fun c3 => (at_ 4).bind (fun c4 => (at_ 5).bind (fun c5 =>
      s.store (gray48 env c0 c1 c2 c3 c4 c5) 6))))))
  else some { s with j := (s.j + 1) % 2 ^ 32 }

/-- The conversion loop, run for at most `fuel` iterations: the final state,
`none` when an index is out of bounds or the iterations do not suffice. -/
def convertLoop (env : ColorEnv) (depth : Nat) (rawColor : List Nat) :
    Nat → LoopState → Option LoopState
  | 0, s => if s.i < rawColor.length ∧ s.j < s.rawGray.length then none else some s
  | fuel + 1, s =>
    if s.i < rawColor.length ∧ s.j < s.rawGray.length then
      (loopBody env depth rawColor s).bind (convertLoop env depth rawColor fuel)
    else some s

/-- The quantisation of one gray value to black or white. -/
def quantize : Option Nat → Option Nat
  | some v => if v ≤ 127 then some 0 else some 255
  | none => none

/-- What a call of `getRawGrayscaleData` does. -/
inductive GrayResult where
  | thrown (e : Error)
  | returned (rawGray : List (Option Nat))
  | undefined

/-- The method `getRawGrayscaleData(depth)`.  The output array has `pixels`
elements, none of them initialised; the loop is given `pixels` iterations,
which let `j` reach the end of the output. -/
def Image.getRawGrayscaleData (env : ColorEnv) (img : Image) (depth : Nat) : GrayResult :=
  if depth ≠ 8 ∧ depth ≠ 1 then GrayResult.thrown Error.ParameterError
  else if img._depth = 8 ∧ depth = 8 then GrayResult.returned (img.rawData.map some)
  else
    let size := img.pixels
    match convertLoop env img._depth img.rawData size ⟨0, 0, List.replicate size none⟩ with
    | none => GrayResult.undefined
    | some s =>
      if depth = 1 then GrayResult.returned (s.rawGray.map quantize)
      else GrayResult.returned s.rawGray

/-- The number of bytes by which `i` advances in the case of each depth that
the switch handles (0 for any other depth, where `i` stays). -/
def bytesPerPixel (depth : Nat) : Nat :=
  if depth = 1 ∨ depth = 8 then 1
  else if depth = 16 then 2
  else if depth = 24 then 3
  else if depth = 32 then 4
  else if depth = 48 then 6
  else 0

/-- The depths that the switch of the conversion loop handles. -/
def handledDepth (depth : Nat) : Prop :=
  depth = 1 ∨ depth = 8 ∨ depth = 16 ∨ depth = 24 ∨ depth = 32 ∨ depth = 48

/-- The first `n` iterations of the conversion loop, fewer when the loop
condition fails before: the state reached, `none` only when an array is
indexed outside its bounds. -/
def iterations (env : ColorEnv) (depth : Nat) (rawColor : List Nat) :
    Nat → LoopState → Option LoopState
  | 0, s => some s
  | n + 1, s =>
    if s.i < rawColor.length ∧ s.j < s.rawGray.length then
      (loopBody env depth rawColor s).bind (iterations env depth rawColor n)
    else some s

/-- The loop variables at the start of the conversion loop of `img`. -/
def Image.loopStart (img : Image) : LoopState :=
  ⟨0, 0, List.replicate img.pixels none⟩

/-- What holds of the loop variables before every iteration: both counters are
`uint32_t` values, the output keeps its size, and while the raw data has
fewer than 2^32 bytes `i` is a multiple of the bytes per pixel. -/
def LoopInv (depth : Nat) (rawColor : List Nat) (pixels : Nat) (s : LoopState) : Prop :=
  s.i < 2 ^ 32 ∧ s.j < 2 ^ 32 ∧ s.rawGray.length = pixels ∧
  (rawColor.length < 2 ^ 32 → bytesPerPixel depth ∣ s.i)

/-! ## The test program's data -/

/-- A file system holding only the working directory `/home`. -/
def homeFs : FileSystem :=
  { entries := [(["home".toList], Node.dir)], cwd := ["home".toList] }

/-- The store name used by `test_be_recordstore.cpp`. -/
def frstest : List Char := "frs_test".toList

/-- The key used by `test_be_recordstore.cpp`. -/
def firstRec : List Char := "firstRec".toList

/-- The record written by `test_be_recordstore.cpp`. -/
def wdata : List Char := "ABCDEFGHIJKLMNOPQWSTUVWXYZ".toList

/-- The zeroed 64-byte read buffer of `test_be_recordstore.cpp`. -/
def rdata : List Char := List.replicate 64 (Char.ofNat 0)

/-- The state after the test's `new FileRecordStore(frstest, "RW Test Dir")` in `/home`. -/
def createdState : State :=
  (FileRecordStore.create homeFs frstest "RW Test Dir".toList 64).2

/-- The state after the test's first `insert(firstRec, wdata, count)`. -/
def insertedState : State :=
  (FileRecordStore.insert createdState firstRec wdata wdata.length wdata.length wdata.length).2

/-- A store directory `/home/frs_test` whose control file holds the single
line `frs_test` with its terminating newline. -/
def oneLineControlFs : FileSystem :=
  { entries := [(["home".toList, frstest, controlFileName], Node.file "frs_test\n".toList),
                (["home".toList, frstest], Node.dir),
                (["home".toList], Node.dir)],
    cwd := ["home".toList] }

/-- An open store rooted at `/home/frs_test` whose control file is missing
from the root. -/
def noControlState : State :=
  { fs := { entries := [(["home".toList, frstest], Node.dir), (["home".toList], Node.dir)],
            cwd := ["home".toList] },
    self := { _name := frstest, _description := [], _count := 0, _directory := frstest } }

/-- A 48-bit image of two pixels. -/
def twoPixelImage : Image :=
  ⟨2, 1, 48, [255, 255, 0, 0, 0, 0, 0, 1, 2, 3, 4, 5]⟩

/-- A colour environment with 65535 as both maxima and an integer
approximation of the weighted sum. -/
def sampleEnv : ColorEnv :=
  ⟨65535, 65535, fun r g b => (299 * r + 587 * g + 114 * b) / 1000⟩

/-- A record of 2^20 bytes, longer than a block of the stream. -/
def bigRecord : List Char := List.replicate (2 ^ 20) 'A'

/-- The store of `st` is rooted at `root`: its directory name is a C string
that is not empty and resolves to the directory `root`. -/
def Rooted (st : State) (root : Path) : Prop :=
  (∀ c ∈ st.self._directory, c ≠ Char.ofNat 0) ∧ st.self._directory ≠ [] ∧
  walk st.fs (startDir st.fs st.self._directory) (splitPath st.self._directory) = some root ∧
  st.fs.node root = some Node.dir

theorem node_put_ne (fs : FileSystem) (t p : Path) (n : Node) (h : t ≠ p) :
    (fs.put t n).node p = fs.node p := by
  simp [FileSystem.node, FileSystem.put, lookup, h]

theorem node_put_self (fs : FileSystem) (t : Path) (n : Node) (h : t ≠ []) :
    (fs.put t n).node t = some n := by
  simp [FileSystem.node, FileSystem.put, lookup, h]

/-! ## The four exits of insert -/

theorem insert_present (st : State) (key data : List Char) (size accepted xfer : Nat)
    (h : fileExists st.fs (st.self.canonicalName key) = true) :
    FileRecordStore.insert st key data size accepted xfer = (some Error.ObjectExists, st) := by
  simp [FileRecordStore.insert, h]

theorem insert_short (st : State) (key data : List Char) (size accepted xfer : Nat) (fp : Path)
    (h : fileExists st.fs (st.self.canonicalName key) = false)
    (ho : openWrite st.fs (st.self.canonicalName key) = some fp)
    (hs : accepted < size) :
    FileRecordStore.insert st key data size accepted xfer
      = (some Error.StrategyError,
          { st with fs := st.fs.put fp (Node.file (data.take (min (min size accepted) xfer))) }) := by
  simp [FileRecordStore.insert, h, ho, hs]

theorem insert_complete (st : State) (key data : List Char) (size accepted xfer : Nat) (fp : Path)
    (h : fileExists st.fs (st.self.canonicalName key) = false)
    (ho : openWrite st.fs (st.self.canonicalName key) = some fp)
    (hs : size ≤ accepted) :
    FileRecordStore.insert st key data size accepted xfer
      = (none,
          { fs := st.fs.put fp (Node.file (data.take (min size xfer))),
            self := { st.self with _count := st.self._count + 1 } }) := by
  have h1 : ¬ accepted < size := by omega
  have h2 : min size accepted = size := by omega
  simp [FileRecordStore.insert, h, ho, h1, h2]

/-- A record that the stream buffers whole is counted even when the device
accepts only a part of it: `fwrite` returns the size, the failure of
`fclose` goes unseen, and the file holds the part. -/
theorem insert_buffered_short_write (st : State) (key data : List Char)
    (size accepted xfer : Nat) (fp : Path)
    (h : fileExists st.fs (st.self.canonicalName key) = false)
    (ho : openWrite st.fs (st.self.canonicalName key) = some fp)
    (hs : size ≤ accepted) (hx : xfer < size) :
    (FileRecordStore.insert st key data size accepted xfer).1 = none ∧
    (FileRecordStore.insert st key data size accepted xfer).2.self._count
      = st.self._count + 1 ∧
    (FileRecordStore.insert st key data size accepted xfer).2.fs
      = st.fs.put fp (Node.file (data.take xfer)) := by
  rw [insert_complete st key data size accepted xfer fp h ho hs]
  have hmin : min size xfer = xfer := by omega
  rw [hmin]
  exact ⟨rfl, rfl, rfl⟩

/-! ## Lemmas on C strings and pathnames -/

theorem cstr_append_of_no_nul (a b : List Char) (h : ∀ c ∈ a, c ≠ Char.ofNat 0) :
    cstr (a ++ b) = a ++ cstr b := by
  induction a with
  | nil => rfl
  | cons x xs ih =>
    have hx : x ≠ Char.ofNat 0 := h x (List.mem_cons_self _ _)
    have hxs : ∀ c ∈ xs, c ≠ Char.ofNat 0 := fun c hc => h c (List.mem_cons_of_mem _ hc)
    simp [cstr, hx, ih hxs]

theorem cstr_append_of_nul (a b : List Char) (h : Char.ofNat 0 ∈ a) :
    cstr (a ++ b) = cstr a := by
  induction a with
  | nil => simp at h
  | cons x xs ih =>
    by_cases hx : x = Char.ofNat 0
    · simp [cstr, hx]
    · have hxs : Char.ofNat 0 ∈ xs := by
        rcases List.mem_cons.mp h with h1 | h1
        · exact absurd h1.symm hx
        · exact h1
      simp [cstr, hx, ih hxs]

theorem cstr_of_no_nul (a : List Char) (h : ∀ c ∈ a, c ≠ Char.ofNat 0) : cstr a = a := by
  have := cstr_append_of_no_nul a [] h
  simpa [cstr] using this

theorem splitPath_ne_nil (p : List Char) : splitPath p ≠ [] := by
  induction p with
  | nil => simp [splitPath]
  | cons c cs ih =>
    by_cases hc : c = '/'
    · simp [splitPath, hc]
    · cases h : splitPath cs with
      | nil => exact absurd h ih
      | cons x xs => simp [splitPath, hc, h]

theorem splitPath_append_slash (a b : List Char) :
    splitPath (a ++ '/' :: b) = splitPath a ++ splitPath b := by
  induction a with
  | nil => simp [splitPath]
  | cons c cs ih =>
    by_cases hc : c = '/'
    · simp [splitPath, hc, ih]
    · cases h : splitPath cs with
      | nil => exact absurd h (splitPath_ne_nil cs)
      | cons x xs => simp [splitPath, hc, ih, h]

theorem splitPath_of_no_slash (k : List Char) (h : '/' ∉ k) : splitPath k = [k] := by
  induction k with
  | nil => rfl
  | cons c cs ih =>
    have hc : c ≠ '/' := fun e => h (by simp [e])
    have hcs : '/' ∉ cs := fun e => h (List.mem_cons_of_mem _ e)
    simp [splitPath, hc, ih hcs]

theorem walk_append (fs : FileSystem) (cur : Path) (xs ys : List (List Char)) :
    walk fs cur (xs ++ ys) = (walk fs cur xs).bind (fun c => walk fs c ys) := by
  induction xs generalizing cur with
  | nil => simp [walk]
  | cons x xs ih =>
    simp only [List.cons_append, walk]
    cases step fs cur x with
    | none => simp
    | some nxt => simp [ih]

/-! ## Lemmas on resolution under growth of the file system -/

theorem sameDirs_put_file (fs : FileSystem) (t : Path) (content : List Char)
    (h : fs.node t ≠ some Node.dir) : SameDirs fs (fs.put t (Node.file content)) := by
  refine ⟨rfl, fun p => ?_⟩
  by_cases hp : t = p
  · subst hp
    by_cases h0 : t = []
    · subst h0; simp [FileSystem.node]
    · rw [node_put_self fs t _ h0]
      simp [h]
  · rw [node_put_ne fs t p _ hp]

theorem moreDirs_put_dir (fs : FileSystem) (t : Path) (h : fs.node t = none) :
    MoreDirs fs (fs.put t Node.dir) := by
  refine ⟨rfl, fun p hp => ?_⟩
  have hne : t ≠ p := by
    intro e
    rw [e] at h
    rw [h] at hp
    cases hp
  rw [node_put_ne fs t p _ hne]
  exact hp

theorem SameDirs.moreDirs {fs fs' : FileSystem} (h : SameDirs fs fs') : MoreDirs fs fs' :=
  ⟨h.1, fun p hp => (h.2 p).mpr hp⟩

theorem step_same {fs fs' : FileSystem} (h : SameDirs fs fs') (cur : Path) (c : List Char) :
    step fs' cur c = step fs cur c := by
  unfold step
  by_cases hd : fs.node cur = some Node.dir
  · rw [if_pos hd, if_pos ((h.2 cur).mpr hd)]
  · rw [if_neg hd, if_neg (fun e => hd ((h.2 cur).mp e))]

theorem walk_same {fs fs' : FileSystem} (h : SameDirs fs fs') (cur : Path)
    (cs : List (List Char)) : walk fs' cur cs = walk fs cur cs := by
  induction cs generalizing cur with
  | nil => rfl
  | cons c cs ih =>
    simp only [walk, step_same h]
    cases step fs cur c with
    | none => rfl
    | some nxt => simp [ih]

theorem startDir_same {fs fs' : FileSystem} (h : fs'.cwd = fs.cwd) (p : List Char) :
    startDir fs' p = startDir fs p := by
  simp [startDir, h]

theorem resolve_same {fs fs' : FileSystem} (h : SameDirs fs fs') (p : List Char) :
    resolve fs' p = resolve fs p := by
  simp [resolve, walk_same h, startDir_same h.1]

theorem step_more {fs fs' : FileSystem} (h : MoreDirs fs fs') (cur x : Path) (c : List Char)
    (hs : step fs cur c = some x) : step fs' cur c = some x := by
  unfold step at hs ⊢
  by_cases hd : fs.node cur = some Node.dir
  · rw [if_pos hd] at hs
    rw [if_pos (h.2 cur hd)]
    exact hs
  · rw [if_neg hd] at hs
    cases hs

theorem walk_more {fs fs' : FileSystem} (h : MoreDirs fs fs') (cur x : Path)
    (cs : List (List Char)) (hw : walk fs cur cs = some x) : walk fs' cur cs = some x := by
  induction cs generalizing cur with
  | nil => exact hw
  | cons c cs ih =>
    simp only [walk] at hw ⊢
    cases hstep : step fs cur c with
    | none => rw [hstep] at hw; cases hw
    | some nxt =>
      rw [hstep] at hw
      rw [step_more h cur nxt c hstep]
      exact ih nxt hw

theorem resolve_more {fs fs' : FileSystem} (h : MoreDirs fs fs') (p : List Char) (x : Path)
    (hr : resolve fs p = some x) : resolve fs' p = some x := by
  unfold resolve at hr ⊢
  by_cases hp : p = []
  · rw [if_pos hp] at hr; cases hr
  · rw [if_neg hp] at hr
    rw [if_neg hp, startDir_same h.1]
    exact walk_more h _ _ _ hr

theorem step_proper (fs : FileSystem) (cur : Path) (c : List Char) (hc : properName c = true) :
    step fs cur c = if fs.node cur = some Node.dir then some (cur ++ [c]) else none := by
  simp only [properName, decide_eq_true_eq] at hc
  unfold step
  by_cases hd : fs.node cur = some Node.dir
  · simp [hd, hc.1, hc.2.1, hc.2.2]
  · simp [hd]

/-- A successful resolution for creation ends in a proper name below a
directory that the rest of the pathname resolves to. -/
theorem resolveNew_shape (fs : FileSystem) (p : List Char) (t : Path)
    (h : resolveNew fs p = some t) :
    ∃ parent c, properName c = true ∧ splitPath p = (splitPath p).dropLast ++ [c] ∧
      walk fs (startDir fs p) (splitPath p).dropLast = some parent ∧
      fs.node parent = some Node.dir ∧ t = parent ++ [c] ∧ resolve fs p = some t ∧ p ≠ [] := by
  unfold resolveNew at h
  cases hl : (splitPath p).getLast? with
  | none => rw [hl] at h; cases h
  | some c =>
    rw [hl] at h
    simp only at h
    by_cases hc : properName c = true
    · rw [if_pos hc] at h
      have hsplit : splitPath p = (splitPath p).dropLast ++ [c] :=
        (List.dropLast_append_getLast? c hl).symm
      have hne : p ≠ [] := by
        intro e
        rw [e] at hl
        simp [splitPath] at hl
        rw [hl] at hc
        simp [properName] at hc
      have hr := h
      unfold resolve at hr
      rw [if_neg hne, hsplit, walk_append] at hr
      cases hw : walk fs (startDir fs p) (splitPath p).dropLast with
      | none => rw [hw] at hr; cases hr
      | some parent =>
        rw [hw] at hr
        simp only [Option.some_bind, walk, step_proper fs parent c hc] at hr
        by_cases hd : fs.node parent = some Node.dir
        · rw [if_pos hd] at hr
          simp only [Option.some_bind, Option.some.injEq] at hr
          exact ⟨parent, c, hc, hsplit, rfl, hd, hr.symm, h, hne⟩
        · rw [if_neg hd] at hr
          cases hr
    · rw [if_neg hc] at h
      cases h

/-! ## Lemmas: the key reaches the file system only through `c_str()` -/

theorem readLine_append (a b : List Char) (h : '\n' ∉ a) :
    readLine (a ++ '\n' :: b) = (a, some b) := by
  induction a with
  | nil => simp [readLine]
  | cons c cs ih =>
    have hc : c ≠ '\n' := fun e => h (by simp [e])
    have hcs : '\n' ∉ cs := fun e => h (List.mem_cons_of_mem _ e)
    simp [readLine, hc, ih hcs]

theorem mkdir_some (fs fs1 : FileSystem) (pathname : List Char) (h : mkdir fs pathname = some fs1) :
    ∃ t, resolveNew fs (dropTrailingSlashes (cstr pathname)) = some t ∧ fs.node t = none ∧
      fs1 = fs.put t Node.dir := by
  unfold mkdir at h
  cases hr : resolveNew fs (dropTrailingSlashes (cstr pathname)) with
  | none => rw [hr] at h; cases h
  | some t =>
    rw [hr] at h
    simp only at h
    by_cases hn : fs.node t = none
    · rw [if_pos hn] at h
      exact ⟨t, rfl, hn, (Option.some.inj h).symm⟩
    · rw [if_neg hn] at h
      cases h

theorem openWrite_some (fs : FileSystem) (pathname : List Char) (fp : Path)
    (h : openWrite fs pathname = some fp) :
    resolveNew fs (cstr pathname) = some fp ∧ fs.node fp ≠ some Node.dir := by
  unfold openWrite at h
  cases hr : resolveNew fs (cstr pathname) with
  | none => rw [hr] at h; cases h
  | some t =>
    rw [hr] at h
    simp only at h
    by_cases hn : fs.node t = some Node.dir
    · rw [if_pos hn] at h
      cases h
    · rw [if_neg hn] at h
      cases h
      exact ⟨rfl, hn⟩

/-- The exits of the two-argument constructor: it returns normally only
after `stat` failed, `mkdir` made the directory and the control file was
opened and written. -/
theorem create_ok (fs : FileSystem) (name description : List Char) (xfer : Nat) (st : State)
    (h : FileRecordStore.create fs name description xfer = (none, st)) :
    ∃ fs1 fp, stat fs name = none ∧ mkdir fs name = some fs1 ∧
      openWrite fs1 (name ++ '/' :: controlFileName) = some fp ∧
      st = ⟨fs1.put fp (Node.file ((name ++ '\n' :: (description ++ ['\n'])).take xfer)),
            { _name := name, _description := description, _count := 0, _directory := name }⟩ := by
  unfold FileRecordStore.create at h
  simp only [RecordStore.init] at h
  cases hs : stat fs name with
  | some n => simp [hs] at h
  | none =>
    cases hm : mkdir fs name with
    | none => simp [hs, hm] at h
    | some fs1 =>
      simp only [hs, hm, Option.isSome_none, Bool.false_eq_true, if_false] at h
      unfold FileRecordStore.writeControlFile at h
      simp only [FileRecordStore.canonicalName] at h
      cases ho : openWrite fs1 (name ++ '/' :: controlFileName) with
      | none => simp [ho] at h
      | some fp =>
        simp only [ho, Prod.mk.injEq, true_and] at h
        exact ⟨fs1, fp, rfl, rfl, ho, h.symm⟩

theorem splitPath_getLast_of_trailing_slash (p : List Char) (h : p.getLast? = some '/') :
    (splitPath p).getLast? = some [] := by
  have hp : p.dropLast ++ ['/'] = p := List.dropLast_append_getLast? '/' h
  rw [← hp, splitPath_append_slash]
  simp [splitPath]

theorem resolveNew_trailing_slash (fs : FileSystem) (p : List Char) (h : p.getLast? = some '/') :
    resolveNew fs p = none := by
  unfold resolveNew
  rw [splitPath_getLast_of_trailing_slash p h]
  simp [properName]

theorem dropTrailingSlashes_eq_self (p : List Char) (h : p.getLast? ≠ some '/') :
    dropTrailingSlashes p = p := by
  have : List.rdropWhile (fun c => decide (c = '/')) p = p := by
    rw [List.rdropWhile_eq_self_iff]
    intro hl hlast
    apply h
    rw [List.getLast?_eq_getLast _ hl]
    simp only [decide_eq_true_eq] at hlast
    rw [hlast]
  exact this

theorem resolveNew_target_ne_nil (fs : FileSystem) (p : List Char) (t : Path)
    (h : resolveNew fs p = some t) : t ≠ [] := by
  obtain ⟨parent, c, _, _, _, _, ht, _, _⟩ := resolveNew_shape fs p t h
  rw [ht]
  simp

theorem cstr_slash_control : cstr ('/' :: controlFileName) = '/' :: controlFileName := by
  decide

theorem splitPath_control : splitPath controlFileName = [controlFileName] := by
  decide

theorem properName_control : properName controlFileName = true := by
  decide

/-- A store name with a NUL in it makes the two-argument constructor throw:
the control file's pathname is then cut down to the directory itself. -/
theorem create_name_no_nul (fs fs1 : FileSystem) (name : List Char) (fp : Path)
    (hm : mkdir fs name = some fs1)
    (ho : openWrite fs1 (name ++ '/' :: controlFileName) = some fp) :
    ∀ c ∈ name, c ≠ Char.ofNat 0 := by
  intro c hc hc0
  rw [hc0] at hc
  obtain ⟨t, hrt, hnt, hfs1⟩ := mkdir_some fs fs1 name hm
  obtain ⟨hrfp, hnfp⟩ := openWrite_some fs1 _ fp ho
  rw [cstr_append_of_nul name _ hc] at hrfp
  by_cases hlast : (cstr name).getLast? = some '/'
  · rw [resolveNew_trailing_slash fs1 _ hlast] at hrfp
    cases hrfp
  · rw [dropTrailingSlashes_eq_self _ hlast] at hrt
    have h1 : resolve fs (cstr name) = some t := (resolveNew_shape fs _ t hrt).choose_spec.choose_spec.2.2.2.2.2.1
    have h2 : resolve fs1 (cstr name) = some fp := (resolveNew_shape fs1 _ fp hrfp).choose_spec.choose_spec.2.2.2.2.2.1
    have hmore : MoreDirs fs fs1 := by rw [hfs1]; exact moreDirs_put_dir fs t hnt
    rw [resolve_more hmore _ t h1] at h2
    have htfp : t = fp := Option.some.inj h2
    apply hnfp
    rw [← htfp, hfs1]
    exact node_put_self fs t _ (resolveNew_target_ne_nil fs _ t hrt)

theorem create_name_ne_nil (fs fs1 : FileSystem) (name : List Char)
    (hm : mkdir fs name = some fs1) : name ≠ [] := by
  intro e
  subst e
  obtain ⟨t, hrt, _, _⟩ := mkdir_some fs fs1 [] hm
  have : resolveNew fs [] = none := rfl
  have h2 : dropTrailingSlashes (cstr []) = [] := by decide
  rw [h2, this] at hrt
  cases hrt

theorem startDir_append (fs : FileSystem) (a b : List Char) (h : a ≠ []) :
    startDir fs (a ++ b) = startDir fs a := by
  cases a with
  | nil => exact absurd rfl h
  | cons x xs => rfl

/-- Opening the canonical name of a key without `/` and NUL for writing, in a
store whose directory name holds no NUL: the directory name resolves to a
directory and the file goes directly below it. -/
theorem openWrite_canonical (fs : FileSystem) (dir k : List Char) (fp : Path)
    (hdir : ∀ c ∈ dir, c ≠ Char.ofNat 0) (hne : dir ≠ [])
    (hk0 : ∀ c ∈ k, c ≠ Char.ofNat 0) (hk : '/' ∉ k)
    (ho : openWrite fs (dir ++ '/' :: k) = some fp) :
    ∃ root, walk fs (startDir fs dir) (splitPath dir) = some root ∧
      fs.node root = some Node.dir ∧ fp = root ++ [k] ∧ properName k = true ∧
      fs.node fp ≠ some Node.dir := by
  obtain ⟨hr, hnd⟩ := openWrite_some fs _ fp ho
  have hc : cstr (dir ++ '/' :: k) = dir ++ '/' :: k := by
    apply cstr_of_no_nul
    intro c hc
    rcases List.mem_append.mp hc with h | h
    · exact hdir c h
    · rcases List.mem_cons.mp h with h | h
      · rw [h]; decide
      · exact hk0 c h
  rw [hc] at hr
  obtain ⟨parent, c, hprop, hsplit, hwalk, hpd, hfp, _, _⟩ := resolveNew_shape fs _ fp hr
  have hs : splitPath (dir ++ '/' :: k) = splitPath dir ++ [k] := by
    rw [splitPath_append_slash, splitPath_of_no_slash k hk]
  rw [hs] at hsplit hwalk
  have hdl : (splitPath dir ++ [k]).dropLast = splitPath dir := by simp
  rw [hdl] at hsplit hwalk
  have hck : k = c := by
    have := List.append_inj_right' hsplit rfl
    simpa using this
  subst hck
  rw [startDir_append fs dir _ hne] at hwalk
  exact ⟨parent, hwalk, hpd, hfp, hprop, hnd⟩

theorem resolve_directory (st : State) (root : Path) (hR : Rooted st root) :
    resolve st.fs (cstr st.self._directory) = some root := by
  obtain ⟨h0, hne, hw, _⟩ := hR
  rw [cstr_of_no_nul _ h0]
  unfold resolve
  rw [if_neg hne]
  exact hw

theorem resolve_canonical (st : State) (root : Path) (hR : Rooted st root) (k : List Char)
    (hk0 : ∀ c ∈ k, c ≠ Char.ofNat 0) (hk : '/' ∉ k) :
    resolve st.fs (cstr (st.self.canonicalName k)) = step st.fs root k := by
  obtain ⟨h0, hne, hw, _⟩ := hR
  have hc : cstr (st.self._directory ++ '/' :: k) = st.self._directory ++ '/' :: k := by
    apply cstr_of_no_nul
    intro c hc
    rcases List.mem_append.mp hc with h | h
    · exact h0 c h
    · rcases List.mem_cons.mp h with h | h
      · rw [h]; decide
      · exact hk0 c h
  unfold FileRecordStore.canonicalName resolve
  rw [hc, if_neg (by simp), splitPath_append_slash, splitPath_of_no_slash k hk,
    startDir_append _ _ _ hne, walk_append, hw]
  simp only [Option.some_bind, walk]
  cases step st.fs root k <;> rfl

theorem stat_canonical_proper (st : State) (root : Path) (hR : Rooted st root) (k : List Char)
    (hk0 : ∀ c ∈ k, c ≠ Char.ofNat 0) (hk : '/' ∉ k) (hp : properName k = true) :
    stat st.fs (st.self.canonicalName k) = st.fs.node (root ++ [k]) := by
  unfold stat
  rw [resolve_canonical st root hR k hk0 hk, step_proper _ _ _ hp, if_pos hR.2.2.2]
  rfl

theorem control_no_nul : ∀ c ∈ controlFileName, c ≠ Char.ofNat 0 := by decide

theorem control_no_slash : '/' ∉ controlFileName := by decide

/-- After a successful create the store is rooted, and its control file, just
below the root, holds the part of the two lines that the device accepted. -/
theorem create_rooted (fs : FileSystem) (name description : List Char) (xfer : Nat) (st : State)
    (h : FileRecordStore.create fs name description xfer = (none, st)) :
    ∃ fs1 root, mkdir fs name = some fs1 ∧
      walk fs1 (startDir fs1 name) (splitPath name) = some root ∧
      fs1.node root = some Node.dir ∧ fs1.node (root ++ [controlFileName]) ≠ some Node.dir ∧
      st.fs = fs1.put (root ++ [controlFileName])
        (Node.file ((name ++ '\n' :: (description ++ ['\n'])).take xfer)) ∧
      st.self = { _name := name, _description := description, _count := 0, _directory := name } ∧
      Rooted st root := by
  obtain ⟨fs1, fp, _, hm, ho, hst⟩ := create_ok fs name description xfer st h
  have h0 := create_name_no_nul fs fs1 name fp hm ho
  have hne := create_name_ne_nil fs fs1 name hm
  obtain ⟨root, hw, hrd, hfp, _, hnd⟩ :=
    openWrite_canonical fs1 name controlFileName fp h0 hne control_no_nul control_no_slash ho
  subst hfp
  have hsame := sameDirs_put_file fs1 (root ++ [controlFileName])
    ((name ++ '\n' :: (description ++ ['\n'])).take xfer) hnd
  refine ⟨fs1, root, hm, hw, hrd, hnd, by rw [hst], by rw [hst], ?_⟩
  rw [hst]
  refine ⟨h0, hne, ?_, ?_⟩
  · show walk (fs1.put _ _) (startDir (fs1.put _ _) name) (splitPath name) = some root
    rw [walk_same hsame, startDir_same hsame.1]
    exact hw
  · exact (hsame.2 root).mpr hrd

/-! ## Lemmas: trailing slashes and the directory that mkdir makes -/

theorem readLine_of_no_newline (a : List Char) (h : '\n' ∉ a) : readLine a = (a, none) := by
  induction a with
  | nil => rfl
  | cons c cs ih =>
    have hc : c ≠ '\n' := fun e => h (by simp [e])
    have hcs : '\n' ∉ cs := fun e => h (List.mem_cons_of_mem _ e)
    simp [readLine, hc, ih hcs]

/-- A stream on a regular file is open and delivers the bytes of the file. -/
theorem openStream_of_fileContent (fs : FileSystem) (pathname content : List Char)
    (h : fileContent fs pathname = some content) :
    openStream fs pathname
      = some { rest := content, readable := true, eofbit := false, failbit := false,
               badbit := false } := by
  unfold fileContent at h
  unfold openStream
  cases hs : stat fs pathname with
  | none => rw [hs] at h; cases h
  | some n =>
    cases n with
    | dir => rw [hs] at h; cases h
    | file c =>
      rw [hs] at h
      cases h
      rfl

/-- The guard of `readControlFile` fires on every control file without a
newline: the empty file and the single unterminated line. -/
theorem readControlFile_no_newline (st : State) (content : List Char)
    (hopen : fileContent st.fs (st.self.canonicalName controlFileName) = some content)
    (hnl : '\n' ∉ content) :
    (FileRecordStore.readControlFile st).1 = some Error.StrategyError := by
  unfold FileRecordStore.readControlFile
  simp [openStream_of_fileContent _ _ _ hopen, getline,
    readLine_of_no_newline content hnl, IStream.eof]

/-! ## Lemmas: the conversion loop -/

theorem add_le_of_dvd_of_lt (b i n : Nat) (hi : b ∣ i) (hn : b ∣ n) (h : i < n) : i + b ≤ n := by
  obtain ⟨a, rfl⟩ := hi
  obtain ⟨c, rfl⟩ := hn
  have hb : 0 < b := by
    rcases Nat.eq_zero_or_pos b with h0 | h0
    · subst h0; simp at h
    · exact h0
  have hac : a < c := Nat.lt_of_mul_lt_mul_left h
  calc b * a + b = b * (a + 1) := by ring
    _ ≤ b * c := Nat.mul_le_mul_left b hac

/-- Every index that an iteration reads lies inside the raw data. -/
theorem read_index_lt (rawColor : List Nat) (b i k : Nat)
    (hi : i < rawColor.length) (hb : b ∣ rawColor.length)
    (hdiv : rawColor.length < 2 ^ 32 → b ∣ i) (hk : k < b) :
    (i + k) % 2 ^ 32 < rawColor.length := by
  by_cases hl : rawColor.length < 2 ^ 32
  · have h1 := add_le_of_dvd_of_lt b i rawColor.length (hdiv hl) hb hi
    have h2 : i + k < rawColor.length := by omega
    rw [Nat.mod_eq_of_lt (by omega)]
    exact h2
  · have h1 : (i + k) % 2 ^ 32 < 2 ^ 32 := Nat.mod_lt _ (by norm_num)
    omega

theorem read_some (rawColor : List Nat) (b i k : Nat)
    (hi : i < rawColor.length) (hb : b ∣ rawColor.length)
    (hdiv : rawColor.length < 2 ^ 32 → b ∣ i) (hk : k < b) :
    ∃ c, rawColor[(i + k) % 2 ^ 32]? = some c := by
  have h := read_index_lt rawColor b i k hi hb hdiv hk
  exact ⟨_, List.getElem?_eq_getElem h⟩

/-- One iteration on a handled depth reads and writes inside the arrays: it
stores a value at `j`, advances `i` by the bytes per pixel and increments `j`. -/
theorem loopBody_some (env : ColorEnv) (depth : Nat) (rawColor : List Nat) (s : LoopState)
    (hd : handledDepth depth) (hlen : bytesPerPixel depth ∣ rawColor.length)
    (hi : s.i < rawColor.length) (hj : s.j < s.rawGray.length)
    (hdiv : rawColor.length < 2 ^ 32 → bytesPerPixel depth ∣ s.i) :
    ∃ v, loopBody env depth rawColor s
      = some { i := (s.i + bytesPerPixel depth) % 2 ^ 32, j := (s.j + 1) % 2 ^ 32,
               rawGray := s.rawGray.set s.j (some v) } := by
  have rd := fun k (hk : k < bytesPerPixel depth) =>
    read_some rawColor (bytesPerPixel depth) s.i k hi hlen hdiv hk
  rcases hd with h | h | h | h | h | h <;> subst h
  · obtain ⟨c0, h0⟩ := rd 0 (by decide)
    simp only [Nat.reducePow, Nat.add_zero] at h0
    exact ⟨c0, by simp [loopBody, LoopState.store, bytesPerPixel, hj, h0]⟩
  · obtain ⟨c0, h0⟩ := rd 0 (by decide)
    simp only [Nat.reducePow, Nat.add_zero] at h0
    exact ⟨c0, by simp [loopBody, LoopState.store, bytesPerPixel, hj, h0]⟩
  · obtain ⟨c0, h0⟩ := rd 0 (by decide)
    obtain ⟨c1, h1⟩ := rd 1 (by decide)
    simp only [Nat.reducePow, Nat.add_zero] at h0 h1
    exact ⟨valueInColorspace (twoBytesValue c0 c1) env.max16BitColor 8 % 256,
      by simp [loopBody, LoopState.store, bytesPerPixel, hj, h0, h1]⟩
  · obtain ⟨c0, h0⟩ := rd 0 (by decide)
    obtain ⟨c1, h1⟩ := rd 1 (by decide)
    obtain ⟨c2, h2⟩ := rd 2 (by decide)
    simp only [Nat.reducePow, Nat.add_zero] at h0 h1 h2
    exact ⟨env.luma c0 c1 c2,
      by simp [loopBody, LoopState.store, bytesPerPixel, hj, h0, h1, h2]⟩
  · obtain ⟨c0, h0⟩ := rd 0 (by decide)
    obtain ⟨c1, h1⟩ := rd 1 (by decide)
    obtain ⟨c2, h2⟩ := rd 2 (by decide)
    simp only [Nat.reducePow, Nat.add_zero] at h0 h1 h2
    exact ⟨env.luma c0 c1 c2,
      by simp [loopBody, LoopState.store, bytesPerPixel, hj, h0, h1, h2]⟩
  · obtain ⟨c0, h0⟩ := rd 0 (by decide)
    obtain ⟨c1, h1⟩ := rd 1 (by decide)
    obtain ⟨c2, h2⟩ := rd 2 (by decide)
    obtain ⟨c3, h3⟩ := rd 3 (by decide)
    obtain ⟨c4, h4⟩ := rd 4 (by decide)
    obtain ⟨c5, h5⟩ := rd 5 (by decide)
    simp only [Nat.reducePow, Nat.add_zero] at h0 h1 h2 h3 h4 h5
    exact ⟨gray48 env c0 c1 c2 c3 c4 c5,
      by simp [loopBody, LoopState.store, bytesPerPixel, hj, h0, h1, h2, h3, h4, h5]⟩

theorem bytesPerPixel_pos (depth : Nat) (hd : handledDepth depth) : 0 < bytesPerPixel depth := by
  rcases hd with h | h | h | h | h | h <;> subst h <;> decide

/-- An iteration on a handled depth succeeds and keeps the invariant. -/
theorem loopBody_inv (env : ColorEnv) (depth : Nat) (rawColor : List Nat) (pixels : Nat)
    (s : LoopState) (hd : handledDepth depth) (hlen : bytesPerPixel depth ∣ rawColor.length)
    (hinv : LoopInv depth rawColor pixels s)
    (hi : s.i < rawColor.length) (hj : s.j < s.rawGray.length) :
    ∃ s2, loopBody env depth rawColor s = some s2 ∧ LoopInv depth rawColor pixels s2 ∧
      s2.i = (s.i + bytesPerPixel depth) % 2 ^ 32 ∧ s2.j = (s.j + 1) % 2 ^ 32 := by
  obtain ⟨_, _, hsize, hdiv⟩ := hinv
  obtain ⟨v, hv⟩ := loopBody_some env depth rawColor s hd hlen hi hj hdiv
  refine ⟨_, hv, ⟨Nat.mod_lt _ (by norm_num), Nat.mod_lt _ (by norm_num), ?_, ?_⟩, rfl, rfl⟩
  · show (s.rawGray.set s.j (some v)).length = pixels
    rw [List.length_set]
    exact hsize
  · intro hl
    show bytesPerPixel depth ∣ (s.i + bytesPerPixel depth) % 2 ^ 32
    have h1 := add_le_of_dvd_of_lt _ _ _ (hdiv hl) hlen hi
    rw [Nat.mod_eq_of_lt (by omega)]
    exact Nat.dvd_add (hdiv hl) (dvd_refl _)

theorem loopInv_start (depth : Nat) (img : Image) :
    LoopInv depth img.rawData img.pixels img.loopStart := by
  refine ⟨by norm_num [Image.loopStart], by norm_num [Image.loopStart], ?_, fun _ => ?_⟩
  · show (List.replicate img.pixels none).length = img.pixels
    exact List.length_replicate _ _
  · exact dvd_zero _

/-- However many iterations are made, none indexes outside an array. -/
theorem iterations_some (env : ColorEnv) (depth : Nat) (rawColor : List Nat) (pixels : Nat)
    (hd : handledDepth depth) (hlen : bytesPerPixel depth ∣ rawColor.length)
    (n : Nat) (s : LoopState) (hinv : LoopInv depth rawColor pixels s) :
    ∃ s2, iterations env depth rawColor n s = some s2 ∧ LoopInv depth rawColor pixels s2 := by
  induction n generalizing s with
  | zero => exact ⟨s, rfl, hinv⟩
  | succ n ih =>
    by_cases hc : s.i < rawColor.length ∧ s.j < s.rawGray.length
    · obtain ⟨s1, h1, hinv1, _, _⟩ :=
        loopBody_inv env depth rawColor pixels s hd hlen hinv hc.1 hc.2
      obtain ⟨s2, h2, hinv2⟩ := ih s1 hinv1
      refine ⟨s2, ?_, hinv2⟩
      simp only [iterations, hc, and_self, if_true, h1, Option.some_bind, h2]
    · refine ⟨s, ?_, hinv⟩
      simp only [iterations, hc, if_false]

/-- With an output of fewer than 2^32 elements the loop ends once `j` has
reached the end of the output. -/
theorem convertLoop_some_of_pixels (env : ColorEnv) (depth : Nat) (rawColor : List Nat)
    (pixels : Nat) (hd : handledDepth depth) (hlen : bytesPerPixel depth ∣ rawColor.length)
    (hp : pixels < 2 ^ 32) (fuel : Nat) (s : LoopState)
    (hinv : LoopInv depth rawColor pixels s) (hf : pixels ≤ fuel + s.j) :
    ∃ s2, convertLoop env depth rawColor fuel s = some s2 ∧ s2.rawGray.length = pixels := by
  induction fuel generalizing s with
  | zero =>
    have hj : ¬ (s.i < rawColor.length ∧ s.j < s.rawGray.length) := by
      rw [hinv.2.2.1]
      omega
    exact ⟨s, by simp only [convertLoop, hj, if_false], hinv.2.2.1⟩
  | succ n ih =>
    by_cases hc : s.i < rawColor.length ∧ s.j < s.rawGray.length
    · obtain ⟨s1, h1, hinv1, _, hj1⟩ :=
        loopBody_inv env depth rawColor pixels s hd hlen hinv hc.1 hc.2
      have hjlt : s.j < pixels := by rw [← hinv.2.2.1]; exact hc.2
      rw [Nat.mod_eq_of_lt (by omega)] at hj1
      obtain ⟨s2, h2, hlen2⟩ := ih s1 hinv1 (by omega)
      refine ⟨s2, ?_, hlen2⟩
      simp only [convertLoop, hc, and_self, if_true, h1, Option.some_bind, h2]
    · exact ⟨s, by simp only [convertLoop, hc, if_false], hinv.2.2.1⟩

theorem pixels_lt (img : Image) : img.pixels < 2 ^ 32 :=
  Nat.mod_lt _ (by norm_num)

/-- A run of the loop that ends within `fuel` iterations is the run of its
first `fuel` iterations. -/
theorem iterations_of_convertLoop (env : ColorEnv) (depth : Nat) (rawColor : List Nat)
    (fuel : Nat) (s s2 : LoopState) (h : convertLoop env depth rawColor fuel s = some s2) :
    iterations env depth rawColor fuel s = some s2 := by
  induction fuel generalizing s with
  | zero =>
    by_cases hc : s.i < rawColor.length ∧ s.j < s.rawGray.length
    · simp only [convertLoop, hc, and_self, if_true] at h
      cases h
    · simp only [convertLoop, hc, if_false] at h
      simp only [iterations, h]
  | succ n ih =>
    by_cases hc : s.i < rawColor.length ∧ s.j < s.rawGray.length
    · simp only [convertLoop, hc, and_self, if_true] at h
      cases hb : loopBody env depth rawColor s with
      | none => rw [hb] at h; cases h
      | some s1 =>
        rw [hb] at h
        simp only [iterations, hc, and_self, if_true, hb, Option.some_bind]
        exact ih s1 h
    · simp only [convertLoop, hc, if_false] at h
      simp only [iterations, hc, if_false, h]

/-! ## C1: read after insert -/

/-- C1 (the code departs from the claim): in the test's own sequence the
insert of `firstRec` succeeds, and the following `read` neither throws nor
returns a length and leaves the zeroed buffer as it was, which is not the
record. -/
theorem read_after_insert_leaves_buffer :
    (FileRecordStore.insert createdState firstRec wdata wdata.length wdata.length wdata.length).1 = none ∧
    FileRecordStore.read insertedState firstRec rdata = (none, none, rdata, insertedState) ∧
    rdata ≠ wdata := by
  decide

/-! ## C2: insert on a present key -/

/-- C2: insert on a key whose canonical path exists throws ObjectExists and
leaves the whole state (every file, hence the bytes under the key and the set
of keys, and the cached count) as it was. -/
theorem insert_present_key_fails (st : State) (key data : List Char) (size accepted xfer : Nat)
    (hpresent : fileExists st.fs (st.self.canonicalName key) = true) :
    FileRecordStore.insert st key data size accepted xfer = (some Error.ObjectExists, st) :=
  insert_present st key data size accepted xfer hpresent

/-- Witness of C2: a second insert of the test's key. -/
theorem insert_present_key_fails_witness :
    fileExists insertedState.fs (insertedState.self.canonicalName firstRec) = true ∧
    FileRecordStore.insert insertedState firstRec wdata 26 26 26
      = (some Error.ObjectExists, insertedState) :=
  ⟨by decide, insert_present_key_fails insertedState firstRec wdata 26 26 26 (by decide)⟩

/-! ## C3: remove -/

/-- C3 (the code departs from the claim): remove of the present key
`firstRec` returns normally and changes nothing: the file is still there, the
count is still 1, and the insert that the test makes next throws
ObjectExists. -/
theorem remove_present_key_keeps_record :
    fileExists insertedState.fs (insertedState.self.canonicalName firstRec) = true ∧
    FileRecordStore.remove insertedState firstRec = (none, insertedState) ∧
    fileExists (FileRecordStore.remove insertedState firstRec).2.fs
      (insertedState.self.canonicalName firstRec) = true ∧
    (FileRecordStore.remove insertedState firstRec).2.self._count = 1 ∧
    (FileRecordStore.insert (FileRecordStore.remove insertedState firstRec).2
      firstRec wdata wdata.length wdata.length wdata.length).1 = some Error.ObjectExists := by
  decide

/-! ## C4: short write -/

/-- C4 as stated fails: with `firstRec` absent, an insert of a record of 2^20
bytes for which `fwrite` returns 10, the device accepting no more, throws
StrategyError and leaves a file holding the first 10 bytes at the canonical
path, so the key is present afterwards. -/
theorem insert_short_write_leaves_file :
    fileExists createdState.fs (createdState.self.canonicalName firstRec) = false ∧
    (FileRecordStore.insert createdState firstRec bigRecord (2 ^ 20) 10 10).1
      = some Error.StrategyError ∧
    fileExists (FileRecordStore.insert createdState firstRec bigRecord (2 ^ 20) 10 10).2.fs
      (createdState.self.canonicalName firstRec) = true ∧
    fileContent (FileRecordStore.insert createdState firstRec bigRecord (2 ^ 20) 10 10).2.fs
      (createdState.self.canonicalName firstRec) = some (List.replicate 10 'A') := by
  decide

/-- C4 amended: when the key is absent, the file can be opened at `fp` and
`fwrite` returns fewer bytes than `size`, insert throws StrategyError, the
object (with its cached count) is unchanged, and every location other
than `fp` is as before. -/
theorem insert_short_write_frame (st : State) (key data : List Char)
    (size accepted xfer : Nat) (fp : Path)
    (habsent : fileExists st.fs (st.self.canonicalName key) = false)
    (hopen : openWrite st.fs (st.self.canonicalName key) = some fp)
    (hshort : accepted < size) :
    (FileRecordStore.insert st key data size accepted xfer).1 = some Error.StrategyError ∧
    (FileRecordStore.insert st key data size accepted xfer).2.self = st.self ∧
    (FileRecordStore.insert st key data size accepted xfer).2.fs.cwd = st.fs.cwd ∧
    ∀ p, p ≠ fp →
      (FileRecordStore.insert st key data size accepted xfer).2.fs.node p = st.fs.node p := by
  rw [insert_short st key data size accepted xfer fp habsent hopen hshort]
  refine ⟨rfl, rfl, rfl, ?_⟩
  intro p hp
  exact node_put_ne st.fs fp p _ (fun h => hp h.symm)

/-- Witness of C4 amended: the test's key with a record of 2^20 bytes for
which `fwrite` returns 10. -/
theorem insert_short_write_frame_witness :
    (FileRecordStore.insert createdState firstRec bigRecord (2 ^ 20) 10 10).1
      = some Error.StrategyError ∧
    (FileRecordStore.insert createdState firstRec bigRecord (2 ^ 20) 10 10).2.self
      = createdState.self ∧
    (FileRecordStore.insert createdState firstRec bigRecord (2 ^ 20) 10 10).2.fs.cwd
      = createdState.fs.cwd ∧
    ∀ p, p ≠ ["home".toList, frstest, firstRec] →
      (FileRecordStore.insert createdState firstRec bigRecord (2 ^ 20) 10 10).2.fs.node p
        = createdState.fs.node p :=
  insert_short_write_frame createdState firstRec bigRecord (2 ^ 20) 10 10
    ["home".toList, frstest, firstRec] (by decide) (by decide) (by decide)

/-! ## C5: the record count -/

/-- C6 (the code departs from the claim): on a control file that holds one
line with its terminating newline, the one-argument constructor returns
normally, whatever the base-class constructor left in the object, and the
description is empty. -/
theorem open_one_line_control_succeeds (base : FileRecordStore) :
    (FileRecordStore.open_ oneLineControlFs base frstest).1 = none ∧
    (FileRecordStore.open_ oneLineControlFs base frstest).2.self._description = [] ∧
    (FileRecordStore.open_ oneLineControlFs base frstest).2.self._directory = frstest := by
  refine ⟨?_, ?_, ?_⟩ <;> rfl

/-! ## C7: keys with a separator or NUL -/

/-- C8 as stated fails: when the control file is missing from the root,
insert with the key `.frscontrol` returns normally and creates the control
file path with the record's bytes. -/
theorem insert_control_name_creates_control_file :
    fileExists noControlState.fs (noControlState.self.canonicalName controlFileName) = false ∧
    (FileRecordStore.insert noControlState controlFileName wdata 26 26 26).1 = none ∧
    fileContent (FileRecordStore.insert noControlState controlFileName wdata 26 26 26).2.fs
      (noControlState.self.canonicalName controlFileName) = some wdata ∧
    (FileRecordStore.insert noControlState controlFileName wdata 26 26 26).2.self._count = 1 := by
  decide

/-- C8 amended: in every state in which the control file exists, insert with
the key `.frscontrol` throws ObjectExists (from the existence probe) and the
state is unchanged. -/
theorem insert_control_name_fails (st : State) (data : List Char) (size accepted xfer : Nat)
    (hcontrol : fileExists st.fs (st.self.canonicalName controlFileName) = true) :
    FileRecordStore.insert st controlFileName data size accepted xfer
      = (some Error.ObjectExists, st) :=
  insert_present st controlFileName data size accepted xfer hcontrol

/-- Witness of C8 amended: the store the test creates. -/
theorem insert_control_name_fails_witness :
    FileRecordStore.insert createdState controlFileName wdata 26 26 26
      = (some Error.ObjectExists, createdState) :=
  insert_control_name_fails createdState wdata 26 26 26 (by decide)

/-! ## C9: create then open -/

/-- C9 as stated fails: with the description `a`, newline, `b` the created
control file holds three lines and open returns the description `a`; with the
name `a`, newline, `b` open returns the directory `a` and the description `b`;
and on a device that accepts only 4 bytes create still returns normally, the
control file holds `frs_` and open throws StrategyError. -/
theorem create_open_not_inverse :
    (FileRecordStore.create homeFs frstest "a\nb".toList 64).1 = none ∧
    fileContent (FileRecordStore.create homeFs frstest "a\nb".toList 64).2.fs
      (frstest ++ '/' :: controlFileName) = some "frs_test\na\nb\n".toList ∧
    (FileRecordStore.open_ (FileRecordStore.create homeFs frstest "a\nb".toList 64).2.fs
      (RecordStore.init [] []) frstest).1 = none ∧
    (FileRecordStore.open_ (FileRecordStore.create homeFs frstest "a\nb".toList 64).2.fs
      (RecordStore.init [] []) frstest).2.self._description = ['a'] ∧
    (FileRecordStore.create homeFs "a\nb".toList ['d'] 64).1 = none ∧
    (FileRecordStore.open_ (FileRecordStore.create homeFs "a\nb".toList ['d'] 64).2.fs
      (RecordStore.init [] []) "a\nb".toList).1 = none ∧
    (FileRecordStore.open_ (FileRecordStore.create homeFs "a\nb".toList ['d'] 64).2.fs
      (RecordStore.init [] []) "a\nb".toList).2.self._directory = ['a'] ∧
    (FileRecordStore.open_ (FileRecordStore.create homeFs "a\nb".toList ['d'] 64).2.fs
      (RecordStore.init [] []) "a\nb".toList).2.self._description = ['b'] ∧
    (FileRecordStore.create homeFs frstest "RW Test Dir".toList 4).1 = none ∧
    fileContent (FileRecordStore.create homeFs frstest "RW Test Dir".toList 4).2.fs
      (frstest ++ '/' :: controlFileName) = some "frs_".toList ∧
    (FileRecordStore.open_ (FileRecordStore.create homeFs frstest "RW Test Dir".toList 4).2.fs
      (RecordStore.init [] []) frstest).1 = some Error.StrategyError := by
  decide

/-- C9 amended: when neither the name nor the description contains a newline
and the device accepts the whole control text, a successful create leaves a
control file that holds exactly the name, a newline, the description, a
newline; and a following open of the same name returns normally, on the same
file system, with `_directory` equal to the name and `_description` equal to
the description, whatever the base-class constructor left in the object. -/
theorem create_then_open (fs : FileSystem) (name description : List Char) (xfer : Nat)
    (st : State)
    (hcreate : FileRecordStore.create fs name description xfer = (none, st))
    (hname : '\n' ∉ name) (hdesc : '\n' ∉ description)
    (hxfer : name.length + description.length + 2 ≤ xfer) :
    fileContent st.fs (st.self.canonicalName controlFileName)
      = some (name ++ '\n' :: (description ++ ['\n'])) ∧
    ∀ base : FileRecordStore,
      FileRecordStore.open_ st.fs base name
        = (none, ⟨st.fs, { base with _directory := name, _description := description }⟩) := by
  obtain ⟨fs1, root, _, _, _, _, hfs, hself, hR⟩ := create_rooted fs name description xfer st hcreate
  have htake : (name ++ '\n' :: (description ++ ['\n'])).take xfer
      = name ++ '\n' :: (description ++ ['\n']) := by
    apply List.take_of_length_le
    simp
    omega
  rw [htake] at hfs
  have hnode : st.fs.node (root ++ [controlFileName])
      = some (Node.file (name ++ '\n' :: (description ++ ['\n']))) := by
    rw [hfs]
    exact node_put_self fs1 _ _ (by simp)
  have hstat : stat st.fs (st.self.canonicalName controlFileName)
      = some (Node.file (name ++ '\n' :: (description ++ ['\n']))) := by
    rw [stat_canonical_proper st root hR controlFileName control_no_nul control_no_slash
      properName_control, hnode]
  have hread : fileContent st.fs (st.self.canonicalName controlFileName)
      = some (name ++ '\n' :: (description ++ ['\n'])) := by
    unfold fileContent
    rw [hstat]
  have hdir : st.self._directory = name := by rw [hself]
  refine ⟨hread, fun base => ?_⟩
  have hexists : fileExists st.fs name = true := by
    unfold fileExists stat
    have := resolve_directory st root hR
    rw [hdir] at this
    rw [this]
    simp [hR.2.2.2]
  have hread2 : fileContent st.fs (name ++ '/' :: controlFileName)
      = some (name ++ '\n' :: (description ++ ['\n'])) := by
    have := hread
    unfold FileRecordStore.canonicalName at this
    rw [hdir] at this
    exact this
  unfold FileRecordStore.open_
  simp only [hexists, Bool.not_true, Bool.false_eq_true, if_false]
  unfold FileRecordStore.readControlFile
  simp only [FileRecordStore.canonicalName, openStream_of_fileContent _ _ _ hread2]
  simp [getline, readLine_append name _ hname, readLine_append description [] hdesc, IStream.eof]

/-- Witness of C9 amended: the test's create in `/home`, then open. -/
theorem create_then_open_witness :
    fileContent createdState.fs (createdState.self.canonicalName controlFileName)
      = some (frstest ++ '\n' :: ("RW Test Dir".toList ++ ['\n'])) ∧
    ∀ base : FileRecordStore,
      FileRecordStore.open_ createdState.fs base frstest
        = (none, ⟨createdState.fs,
            { base with _directory := frstest, _description := "RW Test Dir".toList }⟩) :=
  create_then_open homeFs frstest "RW Test Dir".toList 64 createdState
    (by decide) (by decide) (by decide) (by decide)

/-! ## C10: grayscale conversion of 48-bit images -/

/-- C10 (the code departs from the claim): for a one-pixel image of depth 48 the
call returns the single value `gray48` of its six bytes, and that value is
the same for every choice of the green and blue bytes: only the red sample
reaches the output. -/
theorem gray48_ignores_green_and_blue (env : ColorEnv) (r0 r1 g0 g1 b0 b1 h0 h1 c0 c1 : Nat) :
    Image.getRawGrayscaleData env ⟨1, 1, 48, [r0, r1, g0, g1, b0, b1]⟩ 8
      = GrayResult.returned [some (gray48 env r0 r1 g0 g1 b0 b1)] ∧
    Image.getRawGrayscaleData env ⟨1, 1, 48, [r0, r1, g0, g1, b0, b1]⟩ 8
      = Image.getRawGrayscaleData env ⟨1, 1, 48, [r0, r1, h0, h1, c0, c1]⟩ 8 := by
  constructor <;> rfl

/-! ## C11: bounds and termination of the conversion loop -/

/-- C11: for a stored depth that the switch handles, raw data whose length is
a multiple of the bytes per pixel and a requested depth of 1 or 8, no
iteration of the conversion loop, however many are made, reads `rawColor` or
writes `rawGray` outside its bounds; the loop ends, within `pixels`
iterations and with the output at its size of `xSize * ySize` elements; and
the call returns. -/
theorem conversion_loop_in_bounds (env : ColorEnv) (img : Image) (depth : Nat)
    (hd : handledDepth img._depth)
    (hlen : bytesPerPixel img._depth ∣ img.rawData.length)
    (hdepth : depth = 1 ∨ depth = 8) :
    (∀ n, ∃ s, iterations env img._depth img.rawData n img.loopStart = some s) ∧
    (∃ s, convertLoop env img._depth img.rawData img.pixels img.loopStart = some s ∧
      s.rawGray.length = img.pixels) ∧
    ∃ g, img.getRawGrayscaleData env depth = GrayResult.returned g := by
  have hstart := loopInv_start img._depth img
  have hterm : ∃ s, convertLoop env img._depth img.rawData img.pixels img.loopStart = some s ∧
      s.rawGray.length = img.pixels :=
    convertLoop_some_of_pixels env _ _ _ hd hlen (pixels_lt img) _ _ hstart
      (Nat.le_add_right _ _)
  refine ⟨fun n => ?_, hterm, ?_⟩
  · obtain ⟨s, hs, _⟩ := iterations_some env _ _ img.pixels hd hlen n _ hstart
    exact ⟨s, hs⟩
  · obtain ⟨s, hs, _⟩ := hterm
    unfold Image.loopStart at hs
    unfold Image.getRawGrayscaleData
    rcases hdepth with h | h <;> subst h
    · rw [if_neg (by decide), if_neg (by simp)]
      simp only [hs, if_true]
      exact ⟨_, rfl⟩
    · rw [if_neg (by decide)]
      by_cases h8 : img._depth = 8
      · rw [if_pos ⟨h8, rfl⟩]
        exact ⟨_, rfl⟩
      · rw [if_neg (fun h => h8 h.1)]
        simp only [hs]
        exact ⟨_, rfl⟩

/-- Witness of C11: a 48-bit image of two pixels, requested depth 8. -/
theorem conversion_loop_in_bounds_witness :
    (∀ n, ∃ s, iterations sampleEnv twoPixelImage._depth twoPixelImage.rawData n
      twoPixelImage.loopStart = some s) ∧
    (∃ s, convertLoop sampleEnv twoPixelImage._depth twoPixelImage.rawData
      twoPixelImage.pixels twoPixelImage.loopStart = some s ∧
      s.rawGray.length = twoPixelImage.pixels) ∧
    ∃ g, twoPixelImage.getRawGrayscaleData sampleEnv 8 = GrayResult.returned g :=
  conversion_loop_in_bounds sampleEnv twoPixelImage 8
    (Or.inr (Or.inr (Or.inr (Or.inr (Or.inr rfl))))) (by decide) (Or.inr rfl)

end BiometricEvaluation
